import Mathlib

/-!
Verification of the Profyle-Sync skill-matching and categorization pipeline.

The development shallowly embeds the pipeline's Python source:
* `src/services/text_processing.py` — `clean_resume_for_categorization`
* `src/services/skill_extraction.py` — `SkillExtractor` (rule-based and
  NER-based extraction, combination, job-description matching)
* `src/services/ml_service.py` — `MLCategorizationService.predict_category`
* `src/config/settings.py` — `SKILLS_DB`, `CATEGORY_MAPPING`

Strings are embedded as `List Char`; every regex substitution that the
source applies is a literal pattern (or an alternation/character class of
literals), so each `re.sub`/`re.search` call is embedded as an executable
scan over the character list with exactly the source pattern's semantics.
Python floats are abstracted as exact rationals (`ℚ`); all score values
appearing in the verified claims are exactly representable, where the two
agree.
-/

set_option maxRecDepth 200000

namespace ProfyleSync

/-- A Python string, embedded as its list of characters. -/
abbrev Str := List Char

/-- Python's `\s` (and `str.split` / `str.strip` whitespace) on `str`
patterns: ASCII whitespace together with the Unicode whitespace code
points Python's `re` module recognizes. -/
def pyIsSpace (c : Char) : Bool :=
  c = ' ' || c = '\t' || c = '\n' || c = '\r' || c.toNat = 11 || c.toNat = 12 ||
  c.toNat = 0x1c || c.toNat = 0x1d || c.toNat = 0x1e || c.toNat = 0x1f ||
  c.toNat = 0x85 || c.toNat = 0xa0 || c.toNat = 0x1680 ||
  (0x2000 ≤ c.toNat && c.toNat ≤ 0x200a) ||
  c.toNat = 0x2028 || c.toNat = 0x2029 || c.toNat = 0x202f ||
  c.toNat = 0x205f || c.toNat = 0x3000

/-- The punctuation character class the cleaners strip
(`!"#$%&'()*+,-./:;<=>?@[\]^_{|}~` with backquote, i.e. ASCII 33–47,
58–64, 91–96 and 123–126 — exactly the 32 characters of the escaped
class in `text_processing.py`). -/
def isPunctChar (c : Char) : Bool :=
  (33 ≤ c.toNat && c.toNat ≤ 47) || (58 ≤ c.toNat && c.toNat ≤ 64) ||
  (91 ≤ c.toNat && c.toNat ≤ 96) || (123 ≤ c.toNat && c.toNat ≤ 126)

/-- Python's `\w` word character, `[a-zA-Z0-9_]`.  Python's `re` on `str`
is additionally Unicode-aware; every lexicon entry and every text of the
verified properties is ASCII, where the two coincide. -/
def isWordChar (c : Char) : Bool :=
  c.isAlphanum || c = '_'

/-- `str.lower()` on one character.  The source only lowercases either raw
ASCII claim inputs or text already stripped of non-ASCII characters;
on ASCII this is exactly Python's lowercasing. -/
def toLowerChar (c : Char) : Char :=
  if 65 ≤ c.toNat ∧ c.toNat ≤ 90 then Char.ofNat (c.toNat + 32) else c

/-- `str.lower()` over a whole string. -/
def pyLower (s : Str) : Str := s.map toLowerChar

/-- Drop the maximal leading run of whitespace. -/
def dropSpaces : Str → Str
  | [] => []
  | c :: rest => if pyIsSpace c then dropSpaces rest else c :: rest

/-- `str.strip()`: drop leading and trailing whitespace. -/
def pyStrip (s : Str) : Str :=
  (dropSpaces ((dropSpaces s).reverse)).reverse

/-- `not s.strip()`: the string is empty or whitespace-only. -/
def isBlank (s : Str) : Bool := s.all pyIsSpace

/-- After a greedy `\S+`, consume up to and including the first whitespace
character; `none` when no whitespace follows (the `\s` at the end of the
pattern then has nothing to match). -/
def consumeNonSpaceThenSpace : Str → Option Str
  | [] => none
  | c :: rest => if pyIsSpace c then some rest else consumeNonSpaceThenSpace rest

/-- Match `http\S+\s` at the head of the string: literal `http`, at least
one non-whitespace character, then greedily all non-whitespace up to a
whitespace character, which is consumed too.  Returns the remainder after
the match. -/
def matchURL : Str → Option Str
  | 'h' :: 't' :: 't' :: 'p' :: c :: rest =>
    if pyIsSpace c then none else consumeNonSpaceThenSpace rest
  | _ => none

/-- `re.sub('http\S+\s', ' ', s)`: leftmost non-overlapping matches, each
replaced by a single space.  Fuel-driven so the definition is structural
(and hence kernel-reducible); the fuel is the string length, which bounds
the number of scan steps since every step consumes at least one character. -/
def subURLFuel : Nat → Str → Str
  | 0, s => s
  | _, [] => []
  | n + 1, c :: rest =>
    match matchURL (c :: rest) with
    | some after => ' ' :: subURLFuel n after
    | none => c :: subURLFuel n rest

/-- `re.sub('http\S+\s', ' ', s)`. -/
def subURL (s : Str) : Str := subURLFuel s.length s

/-- `re.sub('RT|cc', ' ', s)`: case-sensitive literal alternation, each
occurrence replaced by a single space. -/
def subRTccFuel : Nat → Str → Str
  | 0, s => s
  | _, [] => []
  | n + 1, 'R' :: 'T' :: rest => ' ' :: subRTccFuel n rest
  | n + 1, 'c' :: 'c' :: rest => ' ' :: subRTccFuel n rest
  | n + 1, c :: rest => c :: subRTccFuel n rest

/-- `re.sub('RT|cc', ' ', s)`. -/
def subRTcc (s : Str) : Str := subRTccFuel s.length s

/-- Match `#\S+\s` at the head of the string (same shape as the URL
pattern with `#` in place of `http`). -/
def matchHash : Str → Option Str
  | '#' :: c :: rest =>
    if pyIsSpace c then none else consumeNonSpaceThenSpace rest
  | _ => none

/-- `re.sub('#\S+\s', ' ', s)`. -/
def subHashFuel : Nat → Str → Str
  | 0, s => s
  | _, [] => []
  | n + 1, c :: rest =>
    match matchHash (c :: rest) with
    | some after => ' ' :: subHashFuel n after
    | none => c :: subHashFuel n rest

/-- `re.sub('#\S+\s', ' ', s)`. -/
def subHash (s : Str) : Str := subHashFuel s.length s

/-- Skip the maximal (possibly empty) run of non-whitespace characters,
returning the remainder. -/
def consumeNonSpace : Str → Str
  | [] => []
  | c :: rest => if pyIsSpace c then c :: rest else consumeNonSpace rest

/-- Match `@\S+` at the head of the string: `@` followed by a greedy
nonempty run of non-whitespace.  Returns the remainder after the match. -/
def matchMention : Str → Option Str
  | '@' :: c :: rest =>
    if pyIsSpace c then none else some (consumeNonSpace rest)
  | _ => none

/-- `re.sub('@\S+', '  ', s)`: each match replaced by two spaces. -/
def subMentionFuel : Nat → Str → Str
  | 0, s => s
  | _, [] => []
  | n + 1, c :: rest =>
    match matchMention (c :: rest) with
    | some after => ' ' :: ' ' :: subMentionFuel n after
    | none => c :: subMentionFuel n rest

/-- `re.sub('@\S+', '  ', s)`. -/
def subMention (s : Str) : Str := subMentionFuel s.length s

/-- `re.sub('[<punctuation class>]', ' ', s)`: every character of the
class becomes one space. -/
def stripPunct (s : Str) : Str :=
  s.map fun c => if isPunctChar c then ' ' else c

/-- `re.sub(r'[^\x00-\x7f]', ' ', s)`: every non-ASCII character becomes
one space. -/
def stripNonAscii (s : Str) : Str :=
  s.map fun c => if 128 ≤ c.toNat then ' ' else c

/-- `re.sub('\s+', ' ', s)`: each maximal run of whitespace becomes a
single space. -/
def collapseWSFuel : Nat → Str → Str
  | 0, s => s
  | _, [] => []
  | n + 1, c :: rest =>
    if pyIsSpace c then ' ' :: collapseWSFuel n (dropSpaces rest)
    else c :: collapseWSFuel n rest

/-- `re.sub('\s+', ' ', s)`. -/
def collapseWS (s : Str) : Str := collapseWSFuel s.length s

/-- `text_processing.clean_resume_for_categorization(txt)` with its default
`remove_stopwords=False` (the only way the pipeline calls it): the seven
substitutions in source order, then `.lower()`.  Note there is no final
strip. -/
def cleanResume (txt : Str) : Str :=
  pyLower (collapseWS (stripNonAscii (stripPunct
    (subMention (subHash (subRTcc (subURL txt)))))))

/-! ### The skill lexicon (`config/settings.py`, `SKILLS_DB`) -/

/-- `settings.SKILLS_DB`, in source order. -/
def SKILLS_DB : List String := [
  "python", "java", "c++", "c#", "javascript", "js", "html", "css", "php", "ruby", "swift", "kotlin",
  "sql", "mysql", "postgresql", "sqlite", "mongodb", "cassandra", "redis", "oracle", "sql server",
  "aws", "azure", "google cloud", "gcp", "docker", "kubernetes", "terraform", "ansible", "jenkins", "git",
  "linux", "unix", "windows", "macos",
  "react", "angular", "vue", "nodejs", "django", "flask", "spring", "ruby on rails", ".net",
  "pandas", "numpy", "scipy", "scikit-learn", "sklearn", "tensorflow", "keras", "pytorch", "matplotlib", "seaborn", "plotly",
  "machine learning", "deep learning", "data science", "data analysis", "data visualization", "nlp", "natural language processing",
  "computer vision", "big data", "hadoop", "spark", "kafka", "hive", "hbase", "spacy", "nltk",
  "agile", "scrum", "jira", "project management", "product management",
  "communication", "teamwork", "leadership", "problem solving", "critical thinking",
  "customer service", "sales", "marketing", "seo", "sem", "content creation",
  "ui/ux", "design", "photoshop", "illustrator", "figma",
  "devops", "automation testing", "selenium", "cybersecurity", "network security",
  "sap", "etl", "power bi", "tableau", "excel", "word", "powerpoint",
  "blockchain", "solidity", "ethereum", "hyperledger",
  "mechanical engineering", "electrical engineering", "civil engineering",
  "hr", "recruitment", "talent acquisition", "employee relations",
  "health", "fitness", "nutrition",
  "advocate", "legal", "law",
  "jquery", "bootstrap", "d3.js", "dc.js", "logstash", "kibana", "r", "sap hana",
  "rest", "soap", "api", "microservices",
  "pmo", "operations management", "business analysis", "dotnet"]

/-- The lexicon as character lists. -/
def skillsDb : List Str := SKILLS_DB.map String.data

/-- `SkillExtractor.skills_db_lower = set(s.lower() for s in SKILLS_DB)`,
kept as a duplicate-free list. -/
def skillsDbLower : List Str := (skillsDb.map pyLower).dedup

/-- `next((s for s in SKILLS_DB if s.lower() == skill), skill)`: the first
lexicon entry whose lowercase is `sk`, defaulting to `sk` itself. -/
def originalSkill (sk : Str) : Str :=
  (skillsDb.find? fun s => pyLower s == sk).getD sk

/-! ### Word-boundary regex search

`extract_rule_based` tests `re.search(r"\b" + re.escape(skill) + r"\b",
text)`.  The escaped skill is a literal, so a match is an occurrence of the
skill as a sublist whose two ends each sit at a `\b` position: a position
where exactly one of the two adjacent characters (string edge counting as
no character) is a word character. -/

/-- Is the left list a prefix of the right one? -/
def startsWith : Str → Str → Bool
  | [], _ => true
  | _ :: _, [] => false
  | p :: ps, t :: ts => p == t && startsWith ps ts

/-- Whether an optional adjacent character is a word character; the string
edge (`none`) is not. -/
def wordAt : Option Char → Bool
  | none => false
  | some c => isWordChar c

/-- `\b` holds between adjacent context characters `l` and `r` iff exactly
one of the two is a word character. -/
def isBoundary (l r : Option Char) : Bool := wordAt l != wordAt r

/-- The pattern `\b skill \b` matches exactly at the start of `text`,
whose preceding character is `prev` (`none` at the start of the string). -/
def matchesAt (skill : Str) (prev : Option Char) (text : Str) : Bool :=
  startsWith skill text && isBoundary prev skill.head? &&
    isBoundary skill.getLast? (text.drop skill.length).head?

/-- `re.search` for `\b skill \b`: does the pattern match at some position
of the remaining text, whose preceding character is `prev`? -/
def searchWB (skill : Str) : Option Char → Str → Bool
  | prev, [] => matchesAt skill prev []
  | prev, c :: rest => matchesAt skill prev (c :: rest) || searchWB skill (some c) rest

/-! ### Rule-based extraction (`SkillExtractor.extract_rule_based`) -/

/-- The maximal leading run of non-whitespace characters. -/
def takeNonSpace : Str → Str
  | [] => []
  | c :: rest => if pyIsSpace c then [] else c :: takeNonSpace rest

/-- Python `str.split()`: split on whitespace runs, dropping empty pieces. -/
def splitWSFuel : Nat → Str → List Str
  | 0, _ => []
  | _, [] => []
  | n + 1, c :: rest =>
    if pyIsSpace c then splitWSFuel n rest
    else (c :: takeNonSpace rest) :: splitWSFuel n (consumeNonSpace rest)

/-- Python `str.split()`. -/
def splitWS (s : Str) : List Str := splitWSFuel s.length s

/-- `' '.join(resume_text.lower().split())`. -/
def processText (t : Str) : Str := List.intercalate [' '] (splitWS (pyLower t))

/-- Python string `<`: lexicographic comparison of code points. -/
def strLt : Str → Str → Bool
  | [], [] => false
  | [], _ :: _ => true
  | _ :: _, [] => false
  | a :: as, b :: bs => a.toNat < b.toNat || (a == b && strLt as bs)

/-- Insert a string into a sorted list of strings. -/
def insertStr (s : Str) : List Str → List Str
  | [] => [s]
  | t :: ts => if strLt s t then s :: t :: ts else t :: insertStr s ts

/-- `sorted(...)` on a list of strings (insertion sort; the inputs the
extractor sorts are duplicate-free, for which any sort agrees with
Python's). -/
def sortStrs (l : List Str) : List Str := l.foldr insertStr []

/-- `SkillExtractor.extract_rule_based(resume_text)`: whitespace-normalize
the lowercased text, keep every lexicon entry with a word-boundary
match, report matches in original lexicon casing, deduplicated and
sorted. -/
def extractRuleBased (text : Str) : List Str :=
  sortStrs (((skillsDbLower.filter fun sk =>
    searchWB sk none (processText text)).map originalSkill).dedup)

/-! ### NER-based extraction (`SkillExtractor.extract_ner_based`) -/

/-- A recognized entity: its text span and its label. -/
structure Ent where
  text : Str
  label : Str

/-- The fixed interest label set of `extract_ner_based`. -/
def potentialSkillLabels : List Str :=
  ["ORG", "PRODUCT", "WORK_OF_ART", "LAW", "NORP"].map String.data

/-- Python `str.isdigit` restricted to ASCII: nonempty and all digits
(the entity texts reaching this test in the verified properties are
ASCII). -/
def isDigitStr (s : Str) : Bool := !s.isEmpty && s.all Char.isDigit

/-- The per-entity body of the `extract_ner_based` loop: a lexicon match
contributes its canonical casing; an entity whose label is in the interest
set only reaches an inert filter (the source's `pass`) and contributes
nothing. -/
def nerCandidate (e : Ent) : Option Str :=
  let tl := pyStrip (pyLower e.text)
  if tl ∈ skillsDbLower then
    some ((skillsDb.find? fun s => pyLower s == tl).getD tl)
  else if e.label ∈ potentialSkillLabels &&
      (2 ≤ tl.length && tl.length < 30) && !isDigitStr tl then
    none
  else none

/-- `SkillExtractor.extract_ner_based(resume_text)` with the optional
recognizer `nlp` (`recognize(text) -> entities`): empty when no recognizer
is configured. -/
def extractNerBased (nlp : Option (Str → List Ent)) (text : Str) : List Str :=
  match nlp with
  | none => []
  | some recog => sortStrs ((recog text).filterMap nerCandidate).dedup

/-- `SkillExtractor.extract_combined(resume_text)`: union of the two
methods, deduplicated and sorted. -/
def extractCombined (nlp : Option (Str → List Ent)) (text : Str) : List Str :=
  sortStrs (extractRuleBased text ++ extractNerBased nlp text).dedup

/-! ### Job-description matching (`SkillExtractor.match_with_jd`) -/

/-- Python `round` to an integer: nearest, ties to even. -/
def roundHalfToEven (q : ℚ) : ℤ :=
  let f := ⌊q⌋
  let r := q - f
  if r < 1 / 2 then f else if 1 / 2 < r then f + 1
  else if Even f then f else f + 1

/-- Python `round(x, 2)`. -/
def round2 (q : ℚ) : ℚ := (roundHalfToEven (q * 100) : ℚ) / 100

/-- The dictionary `match_with_jd` returns. -/
structure MatchReport where
  score : ℚ
  matching : List Str
  missing : List Str
  totalJdSkills : ℕ
  matchedCount : ℕ
  deriving DecidableEq

/-- `SkillExtractor.match_with_jd(resume_skills, jd_skills)`: lowercase
both lists into sets, intersect and subtract, and score the overlap as a
percentage of the job-description set, 0 when that set is empty. -/
def matchWithJd (resumeSkills jdSkills : List Str) : MatchReport :=
  let r := (resumeSkills.map pyLower).dedup
  let j := (jdSkills.map pyLower).dedup
  let matching := j.filter fun x => x ∈ r
  let missing := j.filter fun x => x ∉ r
  let score : ℚ :=
    if j.isEmpty then 0 else (matching.length : ℚ) / (j.length : ℚ) * 100
  { score := round2 score
    matching := sortStrs matching
    missing := sortStrs missing
    totalJdSkills := j.length
    matchedCount := matching.length }

/-! ### ML categorization (`services/ml_service.py`)

`MLCategorizationService` wraps two opaque deserialized capabilities, a
vectorizer (`transform`) and a classifier (`predict`, optionally
`predict_proba`).  The embedding keeps the feature type `φ` abstract and
represents each fallible call as an `Except`: a `.error` value stands for
the call raising an exception.  `predict_category` is then a total Lean
function, mirroring that the Python method catches every exception and
always returns a triple. -/

/-- `settings.CATEGORY_MAPPING`. -/
def CATEGORY_MAPPING : List (Int × String) := [
  (15, "Java Developer"), (23, "Testing"), (8, "DevOps Engineer"),
  (20, "Python Developer"), (24, "Web Designing"), (12, "HR"),
  (13, "Hadoop"), (3, "Blockchain"), (10, "ETL Developer"),
  (18, "Operations Manager"), (6, "Data Science"), (22, "Sales"),
  (16, "Mechanical Engineer"), (1, "Arts"), (7, "Database"),
  (11, "Electrical Engineering"), (14, "Health and fitness"), (19, "PMO"),
  (4, "Business Analyst"), (9, "DotNet Developer"), (2, "Automation Testing"),
  (17, "Network Security Engineer"), (21, "SAP Developer"), (5, "Civil Engineer"),
  (0, "Advocate")]

/-- `CATEGORY_MAPPING.get(prediction_id, f"Unknown Category ({prediction_id})")`. -/
def categoryName (pid : Int) : String :=
  ((CATEGORY_MAPPING.find? fun p => p.1 == pid).map Prod.snd).getD
    ("Unknown Category (" ++ toString pid ++ ")")

/-- The loaded state of `MLCategorizationService`: the `loaded` flag set by
`_load_models`, and the three capabilities of the deserialized model pair.
`predictProba = none` models a classifier without `predict_proba`. -/
structure MLService (φ : Type) where
  loaded : Bool
  transform : Str → Except String φ
  predictId : φ → Except String Int
  predictProba : Option (φ → Except String (List ℚ))

/-- `max(probabilities)` over a nonempty list. -/
def listMax (p : ℚ) (ps : List ℚ) : ℚ := ps.foldl max p

/-- `MLCategorizationService.predict_category(resume_text)`.  Control flow
of the source, in order: the not-loaded guard; cleaning; the blank-text
guard; the inner `try` around `transform` whose handler returns
`("Model Error", None, 0.0)`; prediction and confidence under the outer
`try` whose handler returns `("Prediction Error", None, 0.0)` — `max` of
an empty probability vector raises there, hence also maps to the outer
sentinel. -/
def predictCategory {φ : Type} (svc : MLService φ) (text : Str) :
    String × Option Int × ℚ :=
  if !svc.loaded then ("Unknown", none, 0)
  else
    let cleaned := cleanResume text
    if isBlank cleaned then ("Unknown", none, 0)
    else
      match svc.transform cleaned with
      | .error _ => ("Model Error", none, 0)
      | .ok feats =>
        match svc.predictId feats with
        | .error _ => ("Prediction Error", none, 0)
        | .ok pid =>
          match svc.predictProba with
          | none => (categoryName pid, some pid, 0)
          | some proba =>
            match proba feats with
            | .error _ => ("Prediction Error", none, 0)
            | .ok [] => ("Prediction Error", none, 0)
            | .ok (p :: ps) => (categoryName pid, some pid, listMax p ps * 100)

/-! ### Claim-statement predicates

These two predicates are not part of the embedded program; they formalize
preconditions that the spec's sentences quantify over. -/

/-- "Free of the stripped character classes": each of the seven
substitution steps of `clean_resume_for_categorization` leaves the string
unchanged (there is nothing to strip, and no whitespace run to collapse). -/
def untouchedByCleaning (x : Str) : Prop :=
  subURL x = x ∧ subRTcc x = x ∧ subHash x = x ∧ subMention x = x ∧
    stripPunct x = x ∧ stripNonAscii x = x ∧ collapseWS x = x

instance (x : Str) : Decidable (untouchedByCleaning x) := by
  unfold untouchedByCleaning; infer_instance

/-- Every occurrence of `sk` in `t` is immediately followed by a word
character (so each occurrence sits inside a longer word, as "java" does in
"javascripting"). -/
def occInsideWord (sk : Str) : Str → Bool
  | [] => !startsWith sk [] || wordAt (([] : Str).drop sk.length).head?
  | c :: rest =>
    (!startsWith sk (c :: rest) || wordAt ((c :: rest).drop sk.length).head?) &&
      occInsideWord sk rest

/-- Bool substring test: does `p` occur as a contiguous sublist of `t`? -/
def isSubstrB (p : Str) : Str → Bool
  | [] => startsWith p []
  | c :: rest => startsWith p (c :: rest) || isSubstrB p rest

/-! ### Basic lemmas about the embedded operations -/

theorem toNat_ofNat_of_small {n : Nat} (h : n < 55296) : (Char.ofNat n).toNat = n := by
  have hv : n.isValidChar := Or.inl h
  simp [Char.ofNat, hv, Char.ofNatAux, Char.toNat, UInt32.toNat, UInt32.ofNatCore]

theorem toLowerChar_idem (c : Char) : toLowerChar (toLowerChar c) = toLowerChar c := by
  by_cases h : 65 ≤ c.toNat ∧ c.toNat ≤ 90
  · have h32 : (Char.ofNat (c.toNat + 32)).toNat = c.toNat + 32 :=
      toNat_ofNat_of_small (by omega)
    simp only [toLowerChar, if_pos h]
    rw [if_neg (by rw [h32]; omega)]
  · simp only [toLowerChar, if_neg h]

theorem pyLower_idem (s : Str) : pyLower (pyLower s) = pyLower s := by
  simp [pyLower, List.map_map, Function.comp_def, toLowerChar_idem]

theorem mem_insertStr {x s : Str} {l : List Str} :
    x ∈ insertStr s l ↔ x = s ∨ x ∈ l := by
  induction l with
  | nil => simp [insertStr]
  | cons t ts ih =>
    simp only [insertStr]
    split
    · simp
    · rw [List.mem_cons, List.mem_cons, ih]
      tauto

theorem mem_sortStrs {x : Str} {l : List Str} : x ∈ sortStrs l ↔ x ∈ l := by
  induction l with
  | nil => simp [sortStrs]
  | cons t ts ih =>
    simp only [sortStrs, List.foldr_cons] at *
    rw [mem_insertStr, ih, List.mem_cons]

theorem startsWith_append (p s : Str) : startsWith p (p ++ s) = true := by
  induction p with
  | nil => simp [startsWith]
  | cons c cs ih => simpa [startsWith] using ih

theorem exists_of_startsWith {p t : Str} (h : startsWith p t = true) :
    ∃ s, t = p ++ s := by
  induction p generalizing t with
  | nil => exact ⟨t, rfl⟩
  | cons c cs ih =>
    cases t with
    | nil => simp [startsWith] at h
    | cons d ds =>
      simp only [startsWith, Bool.and_eq_true, beq_iff_eq] at h
      obtain ⟨rfl, hs⟩ := h
      obtain ⟨s, rfl⟩ := ih hs
      exact ⟨s, rfl⟩

/-- A successful word-boundary search yields an occurrence of the skill
whose right end satisfies the trailing `\b`. -/
theorem searchWB_decomp {sk : Str} :
    ∀ {prev : Option Char} {t : Str}, searchWB sk prev t = true →
      ∃ p s, t = p ++ sk ++ s ∧ isBoundary sk.getLast? s.head? = true := by
  intro prev t
  induction t generalizing prev with
  | nil =>
    intro h
    simp only [searchWB, matchesAt, Bool.and_eq_true] at h
    obtain ⟨⟨hs, _⟩, hb⟩ := h
    obtain ⟨s, hts⟩ := exists_of_startsWith hs
    cases s with
    | nil =>
      have hsk : sk = [] := by simpa using hts.symm
      subst hsk
      exact ⟨[], [], rfl, by simpa using hb⟩
    | cons a as => simp at hts
  | cons c rest ih =>
    intro h
    simp only [searchWB, Bool.or_eq_true] at h
    rcases h with h | h
    · simp only [matchesAt, Bool.and_eq_true] at h
      obtain ⟨⟨hs, _⟩, hb⟩ := h
      obtain ⟨s, hts⟩ := exists_of_startsWith hs
      refine ⟨[], s, by simpa using hts, ?_⟩
      have : ((c :: rest).drop sk.length).head? = s.head? := by
        rw [hts, List.drop_left]
      rwa [this] at hb
    · obtain ⟨p, s, hts, hb⟩ := ih h
      exact ⟨c :: p, s, by simp [hts], hb⟩

theorem occInsideWord_spec {sk : Str} :
    ∀ {t : Str}, occInsideWord sk t = true →
      ∀ p s, t = p ++ sk ++ s → wordAt s.head? = true := by
  intro t
  induction t with
  | nil =>
    intro h p s hts
    have hp : p = [] ∧ sk ++ s = [] := by
      constructor
      · cases p with
        | nil => rfl
        | cons a as => simp at hts
      · cases p with
        | nil => simpa using hts.symm
        | cons a as => simp at hts
    obtain ⟨rfl, hss⟩ := hp
    have hsk : sk = [] := (List.append_eq_nil.mp hss).1
    have hs : s = [] := (List.append_eq_nil.mp hss).2
    subst hs
    simp only [occInsideWord, hsk, Bool.or_eq_true] at h
    rcases h with h | h
    · simp [startsWith, hsk] at h
    · simpa [hsk] using h
  | cons c rest ih =>
    intro h p s hts
    simp only [occInsideWord, Bool.and_eq_true, Bool.or_eq_true] at h
    obtain ⟨hhead, htail⟩ := h
    cases p with
    | nil =>
      simp only [List.nil_append] at hts
      rcases hhead with hno | hyes
      · exfalso
        rw [hts] at hno
        simp [startsWith_append] at hno
      · rw [hts] at hyes
        rwa [List.drop_left] at hyes
    | cons a as =>
      simp only [List.cons_append] at hts
      exact ih htail as s (by injection hts)

theorem isSubstrB_iff {p : Str} :
    ∀ {t : Str}, isSubstrB p t = true ↔ ∃ a b, t = a ++ p ++ b := by
  intro t
  induction t with
  | nil =>
    simp only [isSubstrB]
    constructor
    · intro h
      obtain ⟨s, hs⟩ := exists_of_startsWith h
      cases s with
      | nil => exact ⟨[], [], by simpa using hs⟩
      | cons x xs => simp at hs
    · rintro ⟨a, b, hab⟩
      have ha : a = [] := by
        cases a with
        | nil => rfl
        | cons x xs => simp at hab
      subst ha
      have hp : p = [] := by
        cases p with
        | nil => rfl
        | cons x xs => simp at hab
      simp [hp, startsWith]
  | cons c rest ih =>
    simp only [isSubstrB, Bool.or_eq_true, ih]
    constructor
    · rintro (h | ⟨a, b, rfl⟩)
      · obtain ⟨s, hs⟩ := exists_of_startsWith h
        exact ⟨[], s, by simpa using hs⟩
      · exact ⟨c :: a, b, by simp⟩
    · rintro ⟨a, b, hab⟩
      cases a with
      | nil =>
        left
        simp only [List.nil_append] at hab
        rw [hab]
        exact startsWith_append p b
      | cons x xs =>
        right
        simp only [List.cons_append] at hab
        exact ⟨xs, b, by injection hab⟩

theorem isSubstrB_trans {a b c : Str} (h1 : isSubstrB a b = true)
    (h2 : isSubstrB b c = true) : isSubstrB a c = true := by
  rw [isSubstrB_iff] at *
  obtain ⟨x, y, rfl⟩ := h1
  obtain ⟨u, v, rfl⟩ := h2
  exact ⟨u ++ x, y ++ v, by simp⟩

theorem isSubstrB_lower {p t : Str} (h : isSubstrB p t = true) :
    isSubstrB (pyLower p) (pyLower t) = true := by
  rw [isSubstrB_iff] at *
  obtain ⟨a, b, rfl⟩ := h
  exact ⟨pyLower a, pyLower b, by simp [pyLower]⟩

theorem dropSpaces_sub (s : Str) : ∃ a, s = a ++ dropSpaces s := by
  induction s with
  | nil => exact ⟨[], rfl⟩
  | cons c rest ih =>
    by_cases h : pyIsSpace c = true
    · obtain ⟨a, ha⟩ := ih
      exact ⟨c :: a, by simp [dropSpaces, h, ← ha]⟩
    · exact ⟨[], by simp [dropSpaces, h]⟩

theorem pyStrip_isSubstrB (s : Str) : isSubstrB (pyStrip s) s = true := by
  rw [isSubstrB_iff]
  obtain ⟨a, ha⟩ := dropSpaces_sub s
  obtain ⟨b, hb⟩ := dropSpaces_sub (dropSpaces s).reverse
  refine ⟨a, b.reverse, ?_⟩
  have hsplit : dropSpaces s = pyStrip s ++ b.reverse := by
    have := congrArg List.reverse hb
    simpa [pyStrip] using this
  conv_lhs => rw [ha]
  rw [hsplit]
  simp [List.append_assoc]

theorem originalSkill_cases (sk : Str) :
    pyLower (originalSkill sk) = sk ∨ originalSkill sk = sk := by
  unfold originalSkill
  cases hf : skillsDb.find? fun s => pyLower s == sk with
  | none => right; rfl
  | some s₁ =>
    left
    have := List.find?_some hf
    simpa using this

theorem pyLower_originalSkill_of_mem {sk : Str} (h : sk ∈ skillsDbLower) :
    pyLower (originalSkill sk) = sk := by
  rw [skillsDbLower, List.mem_dedup, List.mem_map] at h
  obtain ⟨s₀, hs₀, rfl⟩ := h
  unfold originalSkill
  cases hf : skillsDb.find? fun s => pyLower s == pyLower s₀ with
  | none =>
    exfalso
    have : (skillsDb.find? fun s => pyLower s == pyLower s₀).isSome := by
      rw [List.find?_isSome]
      exact ⟨s₀, hs₀, by simp⟩
    rw [hf] at this
    simp at this
  | some s₁ =>
    have := List.find?_some hf
    simpa using this

theorem mem_extractRuleBased {x : Str} {t : Str} :
    x ∈ extractRuleBased t ↔
      ∃ sk, sk ∈ skillsDbLower ∧ searchWB sk none (processText t) = true ∧
        x = originalSkill sk := by
  rw [extractRuleBased, mem_sortStrs, List.mem_dedup, List.mem_map]
  constructor
  · rintro ⟨sk, hsk, rfl⟩
    rw [List.mem_filter] at hsk
    exact ⟨sk, hsk.1, hsk.2, rfl⟩
  · rintro ⟨sk, hmem, hsearch, rfl⟩
    exact ⟨sk, List.mem_filter.mpr ⟨hmem, hsearch⟩, rfl⟩

theorem mem_extractNerBased {x : Str} {recog : Str → List Ent} {t : Str} :
    x ∈ extractNerBased (some recog) t ↔
      ∃ e ∈ recog t, nerCandidate e = some x := by
  rw [extractNerBased, mem_sortStrs, List.mem_dedup, List.mem_filterMap]

theorem nerCandidate_eq_some {e : Ent} {x : Str} (h : nerCandidate e = some x) :
    pyStrip (pyLower e.text) ∈ skillsDbLower ∧
      x = originalSkill (pyStrip (pyLower e.text)) := by
  rw [nerCandidate] at h
  by_cases hmem : pyStrip (pyLower e.text) ∈ skillsDbLower
  · rw [if_pos hmem] at h
    refine ⟨hmem, ?_⟩
    rw [originalSkill]
    exact (Option.some.injEq _ _ ▸ h).symm
  · rw [if_neg hmem] at h
    split at h <;> simp at h

theorem mem_extractCombined {x : Str} {nlp : Option (Str → List Ent)} {t : Str} :
    x ∈ extractCombined nlp t ↔
      x ∈ extractRuleBased t ∨ x ∈ extractNerBased nlp t := by
  rw [extractCombined, mem_sortStrs, List.mem_dedup, List.mem_append]

/-! ### The claims -/

/-- C6: for every input text, if the classifier capability is not loaded,
or if `clean_resume_for_categorization` of the text is empty or
whitespace-only, `predict_category` returns exactly `("Unknown", None,
0.0)` (and, being a total function of the embedding, raises nothing). -/
theorem claim_C6 {φ : Type} (svc : MLService φ) (t : Str)
    (h : svc.loaded = false ∨ isBlank (cleanResume t) = true) :
    predictCategory svc t = ("Unknown", none, 0) := by
  rcases h with h | h
  · simp [predictCategory, h]
  · cases hl : svc.loaded
    · simp [predictCategory, hl]
    · simp [predictCategory, hl, h]

/-- A service whose model files failed to load (`loaded = False`), as
`_load_models` leaves the service when the pickle files are absent. -/
def svcUnloaded : MLService Unit where
  loaded := false
  transform := fun _ => .error "not loaded"
  predictId := fun _ => .ok 0
  predictProba := none

/-- C6 witness: the degraded-mode service maps an arbitrary text to the
`Unknown` sentinel. -/
theorem claim_C6_witness :
    predictCategory svcUnloaded "any text".data = ("Unknown", none, 0) :=
  claim_C6 svcUnloaded "any text".data (Or.inl rfl)

/-- A loaded service whose vectorizer raises on every `transform` call. -/
def svcTransformRaises : MLService Unit where
  loaded := true
  transform := fun _ => .error "transform failed"
  predictId := fun _ => .ok 0
  predictProba := none

/-- C1 counterexample: a `transform` exception is caught by the inner
handler of `predict_category` and reported as `("Model Error", None,
0.0)`, not as the `("Prediction Error", None, 0.0)` sentinel the claim
names. -/
theorem claim_C1_counterexample :
    predictCategory svcTransformRaises "hello".data = ("Model Error", none, 0) ∧
      predictCategory svcTransformRaises "hello".data ≠
        ("Prediction Error", none, 0) := by
  refine ⟨rfl, fun h => ?_⟩
  have : ("Model Error" : String) = "Prediction Error" := congrArg Prod.fst h
  exact absurd this (by decide)

/-- C1 amended: every exception during the feature-transform or prediction
steps of `predict_category` is caught — the function always returns a
sentinel triple — but a transform exception is reported as `("Model
Error", None, 0.0)` while a prediction exception is reported as
`("Prediction Error", None, 0.0)`. -/
theorem claim_C1_amended {φ : Type} (svc : MLService φ) (t : Str)
    (hl : svc.loaded = true) (hnb : isBlank (cleanResume t) = false) :
    (∀ msg, svc.transform (cleanResume t) = .error msg →
      predictCategory svc t = ("Model Error", none, 0)) ∧
    (∀ f msg, svc.transform (cleanResume t) = .ok f →
      svc.predictId f = .error msg →
      predictCategory svc t = ("Prediction Error", none, 0)) := by
  constructor
  · intro msg hmsg
    simp [predictCategory, hl, hnb, hmsg]
  · intro f msg hf hp
    simp [predictCategory, hl, hnb, hf, hp]

/-- C1 witness: the amended theorem applied to a concrete failing
transform. -/
theorem claim_C1_witness :
    predictCategory svcTransformRaises "hello".data = ("Model Error", none, 0) :=
  (claim_C1_amended svcTransformRaises "hello".data rfl rfl).1
    "transform failed" rfl

/-- C2 counterexample: the string "CC" is untouched by every stripping
step of `clean_resume_for_categorization` (so it is free of the stripped
character classes), yet cleaning is not idempotent on it: the final
lowercasing produces "cc", which the second pass's case-sensitive
`RT|cc` substitution then strips. -/
theorem claim_C2_counterexample :
    untouchedByCleaning "CC".data ∧
      cleanResume (cleanResume "CC".data) ≠ cleanResume "CC".data := by
  exact ⟨by decide, by decide⟩

/-- C2 amended: `clean_resume_for_categorization` is idempotent on every
string that is free of the stripped character classes and whose
lowercasing is also free of them (the counterexample shows the second
condition is needed: lowercasing can create fresh case-sensitive `cc` or
`http` matches). -/
theorem claim_C2_amended (x : Str) (hx : untouchedByCleaning x)
    (hlx : untouchedByCleaning (pyLower x)) :
    cleanResume (cleanResume x) = cleanResume x := by
  obtain ⟨u1, r1, g1, m1, p1, a1, w1⟩ := hx
  obtain ⟨u2, r2, g2, m2, p2, a2, w2⟩ := hlx
  have hx1 : cleanResume x = pyLower x := by
    rw [cleanResume, u1, r1, g1, m1, p1, a1, w1]
  rw [hx1, cleanResume, u2, r2, g2, m2, p2, a2, w2, pyLower_idem]

/-- C2 witness: the amended idempotence at a concrete clean string. -/
theorem claim_C2_witness :
    cleanResume (cleanResume "Spring Boot".data) =
      cleanResume "Spring Boot".data :=
  claim_C2_amended "Spring Boot".data (by decide) (by decide)

theorem round2_zero : round2 0 = 0 := by
  have h : ⌊(0 : ℚ) * 100⌋ = 0 := by rw [zero_mul, Int.floor_zero]
  simp only [round2, roundHalfToEven, h]
  norm_num

theorem round2_hundred : round2 100 = 100 := by
  have h : ⌊(100 : ℚ) * 100⌋ = 10000 := by
    rw [Int.floor_eq_iff]
    norm_num
  simp only [round2, roundHalfToEven, h]
  norm_num

theorem toFinset_sortStrs (l : List Str) : (sortStrs l).toFinset = l.toFinset := by
  ext a
  simp [mem_sortStrs]

/-- The length of the matched list equals the cardinality of the
intersection of the two lowercased sets. -/
theorem matching_length_eq (R J : List Str) :
    (((J.map pyLower).dedup).filter
        (fun x => x ∈ (R.map pyLower).dedup)).length =
      ((R.map pyLower).toFinset ∩ (J.map pyLower).toFinset).card := by
  have hnodup : (((J.map pyLower).dedup).filter
      (fun x => x ∈ (R.map pyLower).dedup)).Nodup :=
    (List.nodup_dedup _).filter _
  rw [← List.toFinset_card_of_nodup hnodup]
  congr 1
  ext a
  simp only [List.mem_toFinset, List.mem_filter, List.mem_dedup,
    Finset.mem_inter, decide_eq_true_eq]
  tauto

/-- C3: `match_with_jd` scores the overlap as
`round(|r ∩ j| / |j| * 100, 2)` when the lowercased job-description set
`j` is nonempty, returns score 0 when `j` is empty, and returns exactly
100 when the lowercased resume set contains all of a nonempty `j`. -/
theorem claim_C3 (R J : List Str) :
    ((J.map pyLower).toFinset = ∅ → (matchWithJd R J).score = 0) ∧
    ((J.map pyLower).toFinset ≠ ∅ →
      (matchWithJd R J).score =
        round2 ((((R.map pyLower).toFinset ∩ (J.map pyLower).toFinset).card : ℚ) /
          ((J.map pyLower).toFinset.card : ℚ) * 100)) ∧
    ((J.map pyLower).toFinset ≠ ∅ →
      (J.map pyLower).toFinset ⊆ (R.map pyLower).toFinset →
      (matchWithJd R J).score = 100) := by
  have hjf : ((J.map pyLower).dedup).toFinset = (J.map pyLower).toFinset := by
    ext a
    simp
  have hjlen : ((J.map pyLower).dedup).length = (J.map pyLower).toFinset.card := by
    rw [← hjf, List.toFinset_card_of_nodup (List.nodup_dedup _)]
  refine ⟨?_, ?_, ?_⟩
  · intro hempty
    have hnil : (J.map pyLower).dedup = [] := by
      have := hjf.trans hempty
      simpa using this
    simp only [matchWithJd, hnil]
    simpa using round2_zero
  · intro hne
    have hnil : ¬(J.map pyLower).dedup = [] := by
      intro h
      rw [← hjf, h] at hne
      simp at hne
    simp only [matchWithJd, List.isEmpty_iff, hnil, if_false]
    rw [matching_length_eq, hjlen]
  · intro hne hsub
    have hnil : ¬(J.map pyLower).dedup = [] := by
      intro h
      rw [← hjf, h] at hne
      simp at hne
    simp only [matchWithJd, List.isEmpty_iff, hnil, if_false]
    rw [matching_length_eq, hjlen]
    have hinter : (R.map pyLower).toFinset ∩ (J.map pyLower).toFinset =
        (J.map pyLower).toFinset := Finset.inter_eq_right.mpr hsub
    rw [hinter]
    have hpos : ((J.map pyLower).toFinset.card : ℚ) ≠ 0 := by
      have : (J.map pyLower).toFinset.Nonempty := Finset.nonempty_iff_ne_empty.mpr hne
      have := Finset.card_pos.mpr this
      exact_mod_cast Nat.pos_iff_ne_zero.mp this
    rw [div_self hpos, one_mul, round2_hundred]

/-- C4: `match_with_jd` returns `matching = r ∩ j` and `missing = j − r`
on the lowercased sets, and these satisfy `matching ∪ missing = j` and
`matching ∩ missing = ∅`. -/
theorem claim_C4 (R J : List Str) :
    (matchWithJd R J).matching.toFinset =
        (R.map pyLower).toFinset ∩ (J.map pyLower).toFinset ∧
    (matchWithJd R J).missing.toFinset =
        (J.map pyLower).toFinset \ (R.map pyLower).toFinset ∧
    (matchWithJd R J).matching.toFinset ∪ (matchWithJd R J).missing.toFinset =
        (J.map pyLower).toFinset ∧
    (matchWithJd R J).matching.toFinset ∩ (matchWithJd R J).missing.toFinset =
        ∅ := by
  have hmatch : (matchWithJd R J).matching.toFinset =
      (R.map pyLower).toFinset ∩ (J.map pyLower).toFinset := by
    simp only [matchWithJd, toFinset_sortStrs]
    ext a
    simp only [List.mem_toFinset, List.mem_filter, List.mem_dedup,
      Finset.mem_inter, decide_eq_true_eq]
    tauto
  have hmiss : (matchWithJd R J).missing.toFinset =
      (J.map pyLower).toFinset \ (R.map pyLower).toFinset := by
    simp only [matchWithJd, toFinset_sortStrs]
    ext a
    simp only [List.mem_toFinset, List.mem_filter, List.mem_dedup,
      Finset.mem_sdiff, decide_eq_true_eq]
    try tauto
  refine ⟨hmatch, hmiss, ?_, ?_⟩
  · rw [hmatch, hmiss]
    ext a
    simp only [Finset.mem_union, Finset.mem_inter, Finset.mem_sdiff]
    tauto
  · rw [hmatch, hmiss]
    ext a
    simp only [Finset.mem_inter, Finset.mem_sdiff, Finset.not_mem_empty,
      iff_false]
    tauto

/-- C7: if every occurrence of "java" in the processed text lies inside a
longer word (it is immediately followed by a word character, as in
"javascripting"), the word-boundary anchors prevent `extract_rule_based`
from emitting the skill "java". -/
theorem claim_C7 (t : Str)
    (h : occInsideWord "java".data (processText t) = true) :
    "java".data ∉ extractRuleBased t := by
  intro hmem
  rw [mem_extractRuleBased] at hmem
  obtain ⟨sk, hskmem, hsearch, heq⟩ := hmem
  have hsk : sk = "java".data := by
    rcases originalSkill_cases sk with hc | hc
    · rw [← heq] at hc
      rw [← hc]
      decide
    · rw [hc] at heq
      exact heq.symm
  subst hsk
  obtain ⟨p, s, hdecomp, hb⟩ := searchWB_decomp hsearch
  have hw : wordAt s.head? = true := occInsideWord_spec h p s hdecomp
  have hlast : ("java".data : Str).getLast? = some 'a' := by decide
  rw [hlast, isBoundary, hw] at hb
  have : wordAt (some 'a') = true := by decide
  rw [this] at hb
  simp at hb

/-- C7 witness: "javascripting" does not produce the skill "java". -/
theorem claim_C7_witness :
    "java".data ∉ extractRuleBased "I love javascripting daily".data :=
  claim_C7 "I love javascripting daily".data (by decide)

/-- C8: rule-based extraction of "I know PYTHON and Python." yields the
single canonical entry "python": matching is case-insensitive and the
result is deduplicated. -/
theorem claim_C8 :
    extractRuleBased "I know PYTHON and Python.".data = ["python".data] := by
  decide

/-- C10: lexicon phrases beginning or ending with a non-word character
(such as "c++", "c#" and ".net") can never be matched when the adjacent
context is non-word (whitespace, punctuation or a text boundary), because
`\b` cannot hold between two non-word characters; in particular neither
"c++" nor "c#" is extracted from "Expert in C++ and C#", and ".net" is
not extracted from "Uses .net daily". -/
theorem claim_C10 :
    "c++".data ∉ extractRuleBased "Expert in C++ and C#".data ∧
    "c#".data ∉ extractRuleBased "Expert in C++ and C#".data ∧
    ".net".data ∉ extractRuleBased "Uses .net daily".data ∧
    (∀ (sk : Str) (prev : Option Char) (text : Str),
      wordAt sk.head? = false → wordAt prev = false →
        matchesAt sk prev text = false) ∧
    (∀ (sk : Str) (prev : Option Char) (text : Str),
      wordAt sk.getLast? = false → wordAt ((text.drop sk.length).head?) = false →
        matchesAt sk prev text = false) := by
  have h1 : extractRuleBased "Expert in C++ and C#".data = [] := by decide
  have h2 : extractRuleBased "Uses .net daily".data = [] := by decide
  refine ⟨by simp [h1], by simp [h1], by simp [h2], ?_, ?_⟩
  · intro sk prev text hh hp
    unfold matchesAt
    have hb : isBoundary prev sk.head? = false := by
      unfold isBoundary
      rw [hp, hh]
      rfl
    rw [hb, Bool.and_false, Bool.false_and]
  · intro sk prev text hl hr
    unfold matchesAt
    have hb : isBoundary sk.getLast? ((text.drop sk.length).head?) = false := by
      unfold isBoundary
      rw [hl, hr]
      rfl
    rw [hb, Bool.and_false]

/-- C9: every skill the NER extractor emits is the canonical form of a
lexicon entry whose lowercase is some recognized entity's lowercased,
stripped text; an entity that is not a lexicon match contributes nothing,
whatever its label (the interest-label filter is inert); and without a
recognizer the result is empty. -/
theorem claim_C9 (nlp : Option (Str → List Ent)) (t : Str) :
    (nlp = none → extractNerBased nlp t = []) ∧
    (∀ recog, nlp = some recog → ∀ x ∈ extractNerBased nlp t,
      ∃ e ∈ recog t, pyStrip (pyLower e.text) ∈ skillsDbLower ∧
        x = originalSkill (pyStrip (pyLower e.text))) ∧
    (∀ e : Ent, pyStrip (pyLower e.text) ∉ skillsDbLower →
      nerCandidate e = none) := by
  refine ⟨?_, ?_, ?_⟩
  · rintro rfl
    rfl
  · rintro recog rfl x hx
    rw [mem_extractNerBased] at hx
    obtain ⟨e, he, hcand⟩ := hx
    obtain ⟨hmem, hx⟩ := nerCandidate_eq_some hcand
    exact ⟨e, he, hmem, hx⟩
  · intro e hmem
    rw [nerCandidate, if_neg hmem]
    split
    · rfl
    · rfl

/-- The end-to-end scenario's resume text. -/
def resumeSample : Str :=
  "Experienced Python developer skilled in Django, SQL and AWS.".data

/-- The end-to-end scenario's job-description text. -/
def jdSample : Str :=
  "Looking for a Python developer with Docker and AWS experience.".data

theorem round2_two_thirds : round2 ((2 : ℚ) / 3 * 100) = 66.67 := by
  have hf : ⌊((2 : ℚ) / 3 * 100) * 100⌋ = 6666 := by
    rw [Int.floor_eq_iff]
    norm_num
  simp only [round2, roundHalfToEven, hf]
  rw [if_neg (by norm_num), if_pos (by norm_num)]
  norm_num

theorem extractRuleBased_resumeSample :
    extractRuleBased resumeSample =
      ["aws".data, "django".data, "python".data, "sql".data] := by
  decide

theorem extractRuleBased_jdSample :
    extractRuleBased jdSample =
      ["aws".data, "docker".data, "python".data] := by
  decide

/-- Evaluation of `match_with_jd` against the job-description skill list
`["aws", "docker", "python"]`, for any resume skill list whose lowercased
set contains "aws" and "python" but not "docker". -/
theorem matchWithJd_jdSample (RS : List Str)
    (haws : "aws".data ∈ (RS.map pyLower).dedup)
    (hpy : "python".data ∈ (RS.map pyLower).dedup)
    (hdoc : "docker".data ∉ (RS.map pyLower).dedup) :
    matchWithJd RS ["aws".data, "docker".data, "python".data] =
      { score := 66.67
        matching := ["aws".data, "python".data]
        missing := ["docker".data]
        totalJdSkills := 3
        matchedCount := 2 } := by
  have hj : (((["aws".data, "docker".data, "python".data] : List Str)).map
      pyLower).dedup = ["aws".data, "docker".data, "python".data] := by decide
  have hfilter : (["aws".data, "docker".data, "python".data] : List Str).filter
      (fun x => x ∈ (RS.map pyLower).dedup) = ["aws".data, "python".data] := by
    rw [List.filter_cons_of_pos (by simpa using haws),
        List.filter_cons_of_neg (by simpa using hdoc),
        List.filter_cons_of_pos (by simpa using hpy),
        List.filter_nil]
  have hfilterm : (["aws".data, "docker".data, "python".data] : List Str).filter
      (fun x => x ∉ (RS.map pyLower).dedup) = ["docker".data] := by
    rw [List.filter_cons_of_neg (by simpa using haws),
        List.filter_cons_of_pos (by simpa using hdoc),
        List.filter_cons_of_neg (by simpa using hpy),
        List.filter_nil]
  have hmatching : (matchWithJd RS
      ["aws".data, "docker".data, "python".data]).matching =
      ["aws".data, "python".data] := by
    show sortStrs (((((["aws".data, "docker".data, "python".data] :
        List Str)).map pyLower).dedup).filter
        fun x => x ∈ (RS.map pyLower).dedup) = _
    rw [hj, hfilter]
    decide
  have hmissing : (matchWithJd RS
      ["aws".data, "docker".data, "python".data]).missing =
      ["docker".data] := by
    show sortStrs (((((["aws".data, "docker".data, "python".data] :
        List Str)).map pyLower).dedup).filter
        fun x => x ∉ (RS.map pyLower).dedup) = _
    rw [hj, hfilterm]
    decide
  have htotal : (matchWithJd RS
      ["aws".data, "docker".data, "python".data]).totalJdSkills = 3 := by
    show (((((["aws".data, "docker".data, "python".data] :
        List Str)).map pyLower).dedup)).length = _
    rw [hj]
    decide
  have hmatched : (matchWithJd RS
      ["aws".data, "docker".data, "python".data]).matchedCount = 2 := by
    show (((((["aws".data, "docker".data, "python".data] :
        List Str)).map pyLower).dedup).filter
        fun x => x ∈ (RS.map pyLower).dedup).length = _
    rw [hj, hfilter]
    decide
  have hscore : (matchWithJd RS
      ["aws".data, "docker".data, "python".data]).score = 66.67 := by
    show round2 (if ((((["aws".data, "docker".data, "python".data] :
          List Str)).map pyLower).dedup).isEmpty then 0
        else ((((((["aws".data, "docker".data, "python".data] :
            List Str)).map pyLower).dedup).filter
            fun x => x ∈ (RS.map pyLower).dedup).length : ℚ) /
          (((((["aws".data, "docker".data, "python".data] :
            List Str)).map pyLower).dedup).length : ℚ) * 100) = _
    rw [hj, hfilter, if_neg (by decide)]
    have hc : (((["aws".data, "python".data] : List Str).length : ℚ) /
        ((["aws".data, "docker".data, "python".data] : List Str).length : ℚ) *
        100) = (2 : ℚ) / 3 * 100 := by
      norm_num
    rw [hc, round2_two_thirds]
  have heta : matchWithJd RS ["aws".data, "docker".data, "python".data] =
      { score := (matchWithJd RS
          ["aws".data, "docker".data, "python".data]).score
        matching := (matchWithJd RS
          ["aws".data, "docker".data, "python".data]).matching
        missing := (matchWithJd RS
          ["aws".data, "docker".data, "python".data]).missing
        totalJdSkills := (matchWithJd RS
          ["aws".data, "docker".data, "python".data]).totalJdSkills
        matchedCount := (matchWithJd RS
          ["aws".data, "docker".data, "python".data]).matchedCount } := rfl
  rw [heta, hscore, hmatching, hmissing, htotal, hmatched]

/-- C5: the end-to-end scenario.  For any optional recognizer whose
entities are spans (substrings) of the input — which spaCy entities are —
the pipeline of `app.py` on the sample resume and job-description texts
yields: combined resume skills including python, django, sql and aws;
rule-based job-description skills exactly [aws, docker, python]; matching
[aws, python]; missing [docker]; matched count 2 of 3; score 66.67. -/
theorem claim_C5 (nlp : Option (Str → List Ent))
    (hspan : ∀ recog, nlp = some recog →
      ∀ e ∈ recog resumeSample, isSubstrB e.text resumeSample = true) :
    ("python".data ∈ extractCombined nlp resumeSample ∧
     "django".data ∈ extractCombined nlp resumeSample ∧
     "sql".data ∈ extractCombined nlp resumeSample ∧
     "aws".data ∈ extractCombined nlp resumeSample) ∧
    extractRuleBased jdSample = ["aws".data, "docker".data, "python".data] ∧
    matchWithJd (extractCombined nlp resumeSample) (extractRuleBased jdSample) =
      { score := 66.67
        matching := ["aws".data, "python".data]
        missing := ["docker".data]
        totalJdSkills := 3
        matchedCount := 2 } := by
  have hpy : "python".data ∈ extractCombined nlp resumeSample := by
    rw [mem_extractCombined]
    left
    rw [extractRuleBased_resumeSample]
    decide
  have hdj : "django".data ∈ extractCombined nlp resumeSample := by
    rw [mem_extractCombined]
    left
    rw [extractRuleBased_resumeSample]
    decide
  have hsq : "sql".data ∈ extractCombined nlp resumeSample := by
    rw [mem_extractCombined]
    left
    rw [extractRuleBased_resumeSample]
    decide
  have haws : "aws".data ∈ extractCombined nlp resumeSample := by
    rw [mem_extractCombined]
    left
    rw [extractRuleBased_resumeSample]
    decide
  have hawsl : "aws".data ∈
      ((extractCombined nlp resumeSample).map pyLower).dedup := by
    rw [List.mem_dedup, List.mem_map]
    exact ⟨"aws".data, haws, by decide⟩
  have hpyl : "python".data ∈
      ((extractCombined nlp resumeSample).map pyLower).dedup := by
    rw [List.mem_dedup, List.mem_map]
    exact ⟨"python".data, hpy, by decide⟩
  have hdocl : "docker".data ∉
      ((extractCombined nlp resumeSample).map pyLower).dedup := by
    rw [List.mem_dedup, List.mem_map]
    rintro ⟨x, hx, hlx⟩
    rw [mem_extractCombined] at hx
    rcases hx with hx | hx
    · rw [extractRuleBased_resumeSample] at hx
      simp only [List.mem_cons, List.not_mem_nil, or_false] at hx
      rcases hx with rfl | rfl | rfl | rfl <;> exact absurd hlx (by decide)
    · cases hnlp : nlp with
      | none =>
        rw [hnlp] at hx
        simp [extractNerBased] at hx
      | some recog =>
        rw [hnlp] at hx
        rw [mem_extractNerBased] at hx
        obtain ⟨e, he, hcand⟩ := hx
        obtain ⟨hmem, rfl⟩ := nerCandidate_eq_some hcand
        rw [pyLower_originalSkill_of_mem hmem] at hlx
        have hsub := isSubstrB_trans (pyStrip_isSubstrB (pyLower e.text))
          (isSubstrB_lower (hspan recog hnlp e he))
        rw [hlx] at hsub
        exact absurd hsub (by decide)
  refine ⟨⟨hpy, hdj, hsq, haws⟩, extractRuleBased_jdSample, ?_⟩
  rw [extractRuleBased_jdSample]
  exact matchWithJd_jdSample _ hawsl hpyl hdocl

/-- C5 witness: the scenario with no recognizer configured. -/
theorem claim_C5_witness :
    matchWithJd (extractCombined none resumeSample)
        (extractRuleBased jdSample) =
      { score := 66.67
        matching := ["aws".data, "python".data]
        missing := ["docker".data]
        totalJdSkills := 3
        matchedCount := 2 } :=
  (claim_C5 none (fun _ h => Option.noConfusion h)).2.2

end ProfyleSync

